import Mathlib

/-!
Verification of the core record-reconciliation pipeline of the
Global Threat Intel Parser (src/mitre_parser.py).

The Python source is shallowly embedded: pure computation over lists of
records.  Python strings are modeled at the ASCII level: `str.lower`
lowers the ASCII range A-Z (pyLowerChar), `str.strip` trims ASCII
whitespace, `t in s` is contiguous-substring search, and the regex
`[^a-z0-9]` keeps exactly the ASCII lower-case letters and digits.
Python dicts that the code mutates in place are modeled by explicit
state passing: `deduplicate_results` returns the updated input lists
alongside its result, mirroring the in-place updates of the records
held by the caller.
-/

/-- ASCII model of Python `str.lower` on one character. -/
def pyLowerChar (c : Char) : Char :=
  if 65 ≤ c.toNat ∧ c.toNat ≤ 90 then Char.ofNat (c.toNat + 32) else c

/-- ASCII model of Python `str.lower`. -/
def pyLower (s : String) : String := String.mk (s.data.map pyLowerChar)

/-- ASCII whitespace, as stripped by Python `str.strip`. -/
def isSpaceChar (c : Char) : Bool := decide (c = ' ' ∨ c = '\t' ∨ c = '\n' ∨ c = '\r')

/-- Model of Python `str.strip`: drop whitespace from both ends. -/
def pyStrip (s : String) : String :=
  String.mk (((s.data.dropWhile isSpaceChar).reverse.dropWhile isSpaceChar).reverse)

/-- Model of Python slicing `s[:n]` (by characters). -/
def pyTake (n : Nat) (s : String) : String := String.mk (s.data.take n)

/-- Model of Python `s.replace(chr(10), chr(32))`. -/
def pyReplaceNL (s : String) : String :=
  String.mk (s.data.map (fun c => if c = '\n' then ' ' else c))

/-- Model of Python substring test `needle in hay`. -/
def pyIn (needle hay : String) : Bool :=
  hay.data.tails.any (fun t => needle.data.isPrefixOf t)

/-- Characters kept by the regex `[^a-z0-9]` removal: ASCII lower letters and digits. -/
def isKept (c : Char) : Bool :=
  decide ((97 ≤ c.toNat ∧ c.toNat ≤ 122) ∨ (48 ≤ c.toNat ∧ c.toNat ≤ 57))

/-- `normalize_name` from the source: on a falsy (empty) name return `""`,
otherwise lower-case the name and strip every character not in `[a-z0-9]`. -/
def normalize_name (name : String) : String :=
  if name = "" then "" else String.mk ((pyLower name).data.filter isKept)

/-- The common intermediate/canonical record shape built by both source
matchers (the dict appended by `get_mitre_groups` / `parse_sheet_tab`).
`confirmed_in := []` models the key being absent before `deduplicate_results`
sets it (the code only ever reads it through `.get('confirmed_in', [])`). -/
structure ThreatRecord where
  source : String := ""
  name : String := ""
  norm_name : String := ""
  aliases : List String := []
  details : String := ""
  id : String := ""
  url : String := ""
  region : String := ""
  confirmed_in : List String := []
deriving DecidableEq, Repr, Inhabited

/-- An external reference of a STIX object.  A missing `external_id` is
modeled by the default `"N/A"`, mirroring `ref.get('external_id', 'N/A')`. -/
structure ExtRef where
  source_name : String := ""
  external_id : String := "N/A"
deriving DecidableEq, Repr

/-- A raw object of the structured MITRE feed, with the fields the parser
reads; missing fields are modeled by the same defaults `obj.get` supplies. -/
structure StixObject where
  type : String := ""
  name : String := ""
  description : String := ""
  aliases : List String := []
  x_mitre_deprecated : Bool := false
  external_references : List ExtRef := []
deriving DecidableEq, Repr

/-- The static `synonyms_map` lookup, `synonyms_map.get(term, [])`. -/
def synonymsFor (s : String) : List String :=
  if s = "healthcare" then ["медицина", "здравоохранение", "hospital", "pharmaceutical", "medical"]
  else if s = "finance" then ["банк", "финансы", "banking", "financial"]
  else if s = "energy" then ["энергетика", "energy", "oil", "gas"]
  else if s = "government" then ["правительство", "government", "state"]
  else if s = "telecom" then ["телеком", "telecom", "communication"]
  else if s = "manufacturing" then ["производство", "manufacturing", "industrial"]
  else []

/-- `terms = [search_term] + synonyms_map.get(search_term, [])` with
`search_term = keyword.lower()`. -/
def expandTerms (keyword : String) : List String :=
  let t := pyLower keyword
  t :: synonymsFor t

/-- The search blob of `get_mitre_groups`:
`f-string of name, lowered description, joined aliases`, lowered. -/
def mitreBlob (obj : StixObject) : String :=
  let desc := pyLower obj.description
  pyLower (obj.name ++ " " ++ desc ++ " " ++ String.intercalate " " obj.aliases)

/-- The record `get_mitre_groups` appends for a matching object. -/
def mkMitreRecord (obj : StixObject) : ThreatRecord :=
  let midlink : String × String :=
    match obj.external_references.find? (fun r => r.source_name == "mitre-attack") with
    | some ref => (ref.external_id, "https://attack.mitre.org/groups/" ++ ref.external_id ++ "/")
    | none => ("N/A", "#")
  { source := "MITRE ATT&CK"
    name := obj.name
    norm_name := normalize_name obj.name
    aliases := obj.aliases
    details := pyReplaceNL (pyTake 300 (pyLower obj.description))
    id := midlink.1
    url := midlink.2
    region := "Global" }

/-- The object-selection loop of `get_mitre_groups` (the HTTP layer is an
excluded collaborator; it hands over the decoded `objects` list). -/
def get_mitre_groups (objects : List StixObject) (keyword : String) : List ThreatRecord :=
  let terms := expandTerms keyword
  objects.foldl (fun results obj =>
    if obj.type ≠ "intrusion-set" ∨ obj.x_mitre_deprecated = true then results
    else if terms.any (fun t => pyIn t (mitreBlob obj)) then results ++ [mkMitreRecord obj]
    else results) []

/-- The selection condition of `get_mitre_groups` in one predicate. -/
def mitreSelect (obj : StixObject) (keyword : String) : Bool :=
  obj.type == "intrusion-set" && !obj.x_mitre_deprecated
    && (expandTerms keyword).any (fun t => pyIn t (mitreBlob obj))

/-- The record `parse_sheet_tab` appends for a matching row whose first
long-enough cell stripped to `potential_name`. -/
def mkSheetRecord (sheet_id gid : String) (row : List String) (potential_name : String) :
    ThreatRecord :=
  let context := pyTake 300 (String.intercalate " | " (row.filter (fun v => v ≠ "")))
  { source := "Google Sheet"
    name := potential_name
    norm_name := normalize_name potential_name
    aliases := []
    details := pyReplaceNL context
    id := "N/A (Sheet)"
    url := "https://docs.google.com/spreadsheets/d/" ++ sheet_id ++ "/edit#gid=" ++ gid
    region := "Sheet-GID-" ++ gid }

/-- The cell filter of `parse_sheet_tab`: `if val and len(str(val).strip()) > 2`. -/
def sheetCellOk (v : String) : Bool := decide (v ≠ "" ∧ 2 < (pyStrip v).length)

/-- The row loop of `parse_sheet_tab` (CSV download and decoding are excluded
collaborators; rows arrive as lists of string cells, NaN already `''`). -/
def parse_sheet_tab (rows : List (List String)) (sheet_id gid keyword : String) :
    List ThreatRecord :=
  let search_term := pyLower keyword
  rows.foldl (fun results row =>
    let row_text := pyLower (String.intercalate " " row)
    if pyIn search_term row_text then
      match row.find? sheetCellOk with
      | some v => results ++ [mkSheetRecord sheet_id gid row (pyStrip v)]
      | none => results
    else results) []

/-- A value of `seen_names`: a reference to a record of the MITRE list
(`Sum.inl` with its index) or of the sheet list (`Sum.inr` with its index). -/
abbrev SeenTag := Nat ⊕ Nat

/-- `seen_names`: a Python dict keyed by `norm_name`, in insertion order. -/
abbrev SeenMap := List (String × SeenTag)

/-- Assignment `seen_names[key] = tag`: replace in place if the key exists
(Python dicts keep the original insertion position), append otherwise. -/
def assocSet (sn : SeenMap) (k : String) (t : SeenTag) : SeenMap :=
  match sn with
  | [] => [(k, t)]
  | p :: rest => if p.1 = k then (k, t) :: rest else p :: assocSet rest k t

/-- The heap of `deduplicate_results` mid-run: the (mutated) MITRE list, the
(mutated) sheet list, and `seen_names` holding references into them. -/
structure DedupSt where
  ma : List ThreatRecord
  sa : List ThreatRecord
  seen : SeenMap
deriving Repr

/-- Dereference a `seen_names` value. -/
def getTag (st : DedupSt) : SeenTag → ThreatRecord
  | Sum.inl i => st.ma.getD i default
  | Sum.inr j => st.sa.getD j default

/-- Write through a `seen_names` reference (in-place mutation of the record). -/
def setTag (st : DedupSt) (t : SeenTag) (r : ThreatRecord) : DedupSt :=
  match t with
  | Sum.inl i => { st with ma := st.ma.set i r }
  | Sum.inr j => { st with sa := st.sa.set j r }

/-- `item['confirmed_in'] = [chr(34) MITRE chr(34)]` on a MITRE-pass item. -/
def markMitre (it : ThreatRecord) : ThreatRecord := { it with confirmed_in := ["MITRE"] }

/-- `item['confirmed_in'] = ["Google Sheet"]` on a newly inserted sheet item. -/
def markSheet (it : ThreatRecord) : ThreatRecord := { it with confirmed_in := ["Google Sheet"] }

/-- The cross-reference note appended to `details` when a sheet row confirms
an already-seen record. -/
def sheetNote (url : String) : String :=
  "\n[Также найдено в Google Sheet: " ++ url ++ "]"

/-- The three in-place updates applied to an existing record when a sheet
item with the same key confirms it. -/
def mergeInto (r : ThreatRecord) (url : String) : ThreatRecord :=
  { r with
    confirmed_in := r.confirmed_in ++ ["Google Sheet"]
    source := "MITRE ATT&CK + Google Sheet"
    details := r.details ++ sheetNote url }

/-- The first loop of `deduplicate_results` fills `seen_names` with a
reference to each MITRE item (later duplicates overwrite the value while
keeping the key position). -/
def seenOfMitre (mitre : List ThreatRecord) : SeenMap :=
  mitre.enum.foldl (fun sn p => assocSet sn p.2.norm_name (Sum.inl p.1)) []

/-- One iteration of the sheet loop of `deduplicate_results`, on the item at
position `j` of the sheet list. -/
def dedupStep (st : DedupSt) (j : Nat) : DedupSt :=
  match List.lookup (st.sa.getD j default).norm_name st.seen with
  | some t =>
      if "Google Sheet" ∈ (getTag st t).confirmed_in then st
      else setTag st t (mergeInto (getTag st t) (st.sa.getD j default).url)
  | none =>
      { st with sa := st.sa.set j (markSheet (st.sa.getD j default)),
                seen := st.seen ++ [((st.sa.getD j default).norm_name, Sum.inr j)] }

/-- The sheet loop of `deduplicate_results` over the listed positions. -/
def dedupGo (st : DedupSt) : List Nat → DedupSt
  | [] => st
  | j :: js => dedupGo (dedupStep st j) js

/-- Result of `deduplicate_results`: because the Python function mutates the
records of both input lists in place, the model returns the updated lists
(`mitreOut`, `sheetOut`) together with `list(seen_names.values())`. -/
structure DedupOut where
  mitreOut : List ThreatRecord
  sheetOut : List ThreatRecord
  output : List ThreatRecord
deriving DecidableEq, Repr

/-- `deduplicate_results(mitre_list, sheet_list)`. -/
def deduplicate_results (mitre sheet : List ThreatRecord) : DedupOut :=
  let st0 : DedupSt := ⟨mitre.map markMitre, sheet, seenOfMitre mitre⟩
  let st := dedupGo st0 (List.range sheet.length)
  ⟨st.ma, st.sa, st.seen.map (fun p => getTag st p.2)⟩

/-- The sort key of the final ranking:
`lambda x: (len(x.get('confirmed_in', [])), x['source'])`. -/
def rankKey (r : ThreatRecord) : Nat × String := (r.confirmed_in.length, r.source)

/-- Python string comparison: lexicographic on code points. -/
def strLeB : List Char → List Char → Bool
  | [], _ => true
  | _ :: _, [] => false
  | c1 :: t1, c2 :: t2 =>
    if c1.toNat < c2.toNat then true
    else if c2.toNat < c1.toNat then false
    else strLeB t1 t2

/-- Python tuple comparison on the sort key. -/
def keyLe (a b : Nat × String) : Bool :=
  decide (a.1 < b.1) || (a.1 == b.1 && strLeB a.2.data b.2.data)

/-- Stable descending insertion: the new element goes in front of the first
element whose key is `≤` its own, so that among equal keys earlier input
elements stay first — the behavior of Python `list.sort(reverse=True)`. -/
def insertDesc (r : ThreatRecord) : List ThreatRecord → List ThreatRecord
  | [] => [r]
  | x :: xs => if keyLe (rankKey x) (rankKey r) then r :: x :: xs else x :: insertDesc r xs

/-- `final_results.sort(key=..., reverse=True)`: a stable descending sort. -/
def rank (l : List ThreatRecord) : List ThreatRecord := l.foldr insertDesc []

/-- One full pass of the pipeline tail: reconcile, then rank. -/
def runOnce (m s : List ThreatRecord) : List ThreatRecord :=
  rank (deduplicate_results m s).output

/-- Two passes over the *same* record objects: the second pass receives the
lists as the first pass left them (the in-place mutations included). -/
def runTwice (m s : List ThreatRecord) : List ThreatRecord :=
  let d1 := deduplicate_results m s
  rank (deduplicate_results d1.mitreOut d1.sheetOut).output

/-- ASCII letters (either case) and digits — the characters that survive
normalization up to case. -/
def isAlnumAscii (c : Char) : Bool :=
  decide ((97 ≤ c.toNat ∧ c.toNat ≤ 122) ∨ (65 ≤ c.toNat ∧ c.toNat ≤ 90)
    ∨ (48 ≤ c.toNat ∧ c.toNat ≤ 57))

/-- Two strings differ only in letter case and in non-alphanumeric
characters: their alphanumeric content agrees after case folding. -/
def sameAlnumFolded (x y : String) : Prop :=
  (x.data.filter isAlnumAscii).map pyLowerChar = (y.data.filter isAlnumAscii).map pyLowerChar

/-- The normalized keys of a record list. -/
def normKeys (l : List ThreatRecord) : List String := l.map (fun r => r.norm_name)

/-- `b` ranks no higher than `a` under the final sort key: the descending
order in which `rank` lays out its output. -/
def rankGE (a b : ThreatRecord) : Prop := keyLe (rankKey b) (rankKey a) = true

/-- Invariant of the sheet loop of `deduplicate_results`, over the keys
`mKeys` of the MITRE pass and the list `js` of still-unprocessed sheet
positions: positions are distinct, in range, and their keys avoid the MITRE
keys; every `seen_names` entry referencing the MITRE list carries a MITRE
key, and every entry referencing the sheet list points at an
already-processed position whose record is already marked `"Google Sheet"`. -/
def DedupInv (mKeys : List String) (st : DedupSt) (js : List Nat) : Prop :=
  js.Nodup ∧
  (∀ j ∈ js, j < st.sa.length ∧ (st.sa.getD j default).norm_name ∉ mKeys) ∧
  (∀ p ∈ st.seen,
    (∀ i, p.2 = Sum.inl i → p.1 ∈ mKeys) ∧
    (∀ j, p.2 = Sum.inr j →
      j ∉ js ∧ "Google Sheet" ∈ (st.sa.getD j default).confirmed_in))

/-- A structured-feed record as `get_mitre_groups` would emit it. -/
def recSandwormMitre : ThreatRecord :=
  { source := "MITRE ATT&CK", name := "Sandworm", norm_name := "sandworm"
    aliases := ["ELECTRUM"], details := "sandworm team is a destructive threat group"
    id := "G0034", url := "https://attack.mitre.org/groups/G0034/", region := "Global" }

/-- A tabular record whose display name also normalizes to `sandworm`. -/
def recSandwormSheet : ThreatRecord :=
  { source := "Google Sheet", name := "Sandworm Team", norm_name := "sandworm"
    aliases := [], details := "Sandworm Team | GRU"
    id := "N/A (Sheet)", url := "https://docs.google.com/spreadsheets/d/S1/edit#gid=99"
    region := "Sheet-GID-99" }

/-- A second MITRE record with the same normalized key but another spelling. -/
def recSandwormUpper : ThreatRecord := { recSandwormMitre with name := "SAND-WORM" }

/-- A second sheet record with the same normalized key but another spelling. -/
def recSheetDup : ThreatRecord := { recSandwormSheet with name := "sand worm" }

/-- A tabular record whose key collides with no MITRE record. -/
def recTurlaSheet : ThreatRecord :=
  { recSandwormSheet with name := "Turla", norm_name := "turla" }

/-- The spreadsheet row of the spec's tabular-matcher example. -/
def c4row : List String := ["T001", "", "Sandworm", "GRU-linked group"]

/-- An intrusion set whose name has no alphanumeric characters. -/
def objBang : StixObject :=
  { type := "intrusion-set", name := "!!!", description := "A hospital intrusion group" }

/-- Another punctuation-only-name intrusion set, matching the term `oil`. -/
def objDollar : StixObject :=
  { type := "intrusion-set", name := "$$$", description := "Targets the oil sector" }

/-- An intrusion set with mixed-case, multi-line description. -/
def objFancy : StixObject :=
  { type := "intrusion-set", name := "Fancy Bear"
    description := "Targets HOSPITAL networks\nand more", aliases := ["APT28"]
    external_references := [{ source_name := "mitre-attack", external_id := "G0007" }] }

/-- Ranking example: sizes 1, 2, 1, 3; the two size-1 records have distinct
source labels, `"A"` for the earlier and `"B"` for the later one. -/
def rnkA : ThreatRecord := { name := "a", confirmed_in := ["x"], source := "A" }

def rnkB : ThreatRecord := { name := "b", confirmed_in := ["x", "y"], source := "B" }

def rnkC : ThreatRecord := { name := "c", confirmed_in := ["z"], source := "B" }

def rnkD : ThreatRecord := { name := "d", confirmed_in := ["x", "y", "z"], source := "D" }

/-- The same four sizes with one shared source label. -/
def rnkA2 : ThreatRecord := { rnkA with source := "S" }

def rnkB2 : ThreatRecord := { rnkB with source := "S" }

def rnkC2 : ThreatRecord := { rnkC with source := "S" }

def rnkD2 : ThreatRecord := { rnkD with source := "S" }

/-! ### Character-level facts about the ASCII lowering -/

theorem toNat_charOfNat_valid {n : Nat} (h : n < 55296) : (Char.ofNat n).toNat = n := by
  have hv : n.isValidChar := Or.inl h
  simp [Char.ofNat, dif_pos hv, Char.ofNatAux, Char.toNat, UInt32.toNat]

theorem pyLowerChar_toNat (c : Char) :
    (pyLowerChar c).toNat =
      if 65 ≤ c.toNat ∧ c.toNat ≤ 90 then c.toNat + 32 else c.toNat := by
  unfold pyLowerChar
  split
  · next h => exact toNat_charOfNat_valid (by omega)
  · rfl

theorem isKept_pyLowerChar (c : Char) : isKept (pyLowerChar c) = isAlnumAscii c := by
  have h := pyLowerChar_toNat c
  simp only [isKept, isAlnumAscii]
  rw [h]
  by_cases hu : 65 ≤ c.toNat ∧ c.toNat ≤ 90
  · rw [if_pos hu]
    simp only [decide_eq_decide]
    omega
  · rw [if_neg hu]
    simp only [decide_eq_decide]
    omega

theorem pyLowerChar_of_isKept {c : Char} (h : isKept c = true) : pyLowerChar c = c := by
  have hk : (97 ≤ c.toNat ∧ c.toNat ≤ 122) ∨ (48 ≤ c.toNat ∧ c.toNat ≤ 57) :=
    of_decide_eq_true h
  unfold pyLowerChar
  rw [if_neg (by omega)]

theorem normalize_name_eq (s : String) :
    normalize_name s = String.mk ((s.data.filter isAlnumAscii).map pyLowerChar) := by
  by_cases hs : s = ""
  · subst hs; rfl
  · unfold normalize_name
    rw [if_neg hs]
    unfold pyLower
    show String.mk ((s.data.map pyLowerChar).filter isKept) = _
    rw [List.filter_map]
    congr 2
    apply List.filter_congr
    intro c _
    exact isKept_pyLowerChar c

theorem isAlnumAscii_of_isKept {c : Char} (h : isKept c = true) : isAlnumAscii c = true := by
  have hk : (97 ≤ c.toNat ∧ c.toNat ≤ 122) ∨ (48 ≤ c.toNat ∧ c.toNat ≤ 57) :=
    of_decide_eq_true h
  unfold isAlnumAscii
  exact decide_eq_true_eq.mpr (by omega)

theorem normalize_name_idem (x : String) :
    normalize_name (normalize_name x) = normalize_name x := by
  rw [normalize_name_eq (normalize_name x), normalize_name_eq x]
  set L := (x.data.filter isAlnumAscii).map pyLowerChar with hL
  have hdata : (String.mk L).data = L := rfl
  have hkept : ∀ c ∈ L, isKept c = true := by
    intro c hc
    rcases List.mem_map.mp hc with ⟨a, ha, rfl⟩
    rw [isKept_pyLowerChar]
    exact List.of_mem_filter ha
  congr 1
  rw [hdata]
  have hfil : L.filter isAlnumAscii = L :=
    List.filter_eq_self.mpr (fun c hc => isAlnumAscii_of_isKept (hkept c hc))
  rw [hfil]
  conv_rhs => rw [← List.map_id L]
  exact List.map_congr_left (fun c hc => pyLowerChar_of_isKept (hkept c hc))

/-- C9: `normalize` is idempotent; strings whose alphanumeric content agrees
up to case normalize to the same key; `normalize("APT-28") = normalize("apt 28")`;
and the empty string normalizes to the empty string. -/
theorem c9_normalize_properties :
    (∀ x, normalize_name (normalize_name x) = normalize_name x) ∧
    (∀ x y, sameAlnumFolded x y → normalize_name x = normalize_name y) ∧
    normalize_name "APT-28" = normalize_name "apt 28" ∧
    normalize_name "" = "" := by
  refine ⟨normalize_name_idem, ?_, by decide, rfl⟩
  intro x y h
  rw [normalize_name_eq x, normalize_name_eq y]
  exact congrArg String.mk h

/-- Witness for C9 at concrete inputs. -/
theorem c9_normalize_properties_witness :
    sameAlnumFolded "Fancy Bear" "FANCY-BEAR!" ∧
    normalize_name "Fancy Bear" = normalize_name "FANCY-BEAR!" :=
  ⟨by unfold sameAlnumFolded; decide,
    c9_normalize_properties.2.1 "Fancy Bear" "FANCY-BEAR!" (by unfold sameAlnumFolded; decide)⟩

/-! ### The structured-feed matcher -/

theorem get_mitre_groups_foldl (objects : List StixObject) (keyword : String)
    (acc : List ThreatRecord) :
    objects.foldl (fun results obj =>
      if obj.type ≠ "intrusion-set" ∨ obj.x_mitre_deprecated = true then results
      else if (expandTerms keyword).any (fun t => pyIn t (mitreBlob obj)) then
        results ++ [mkMitreRecord obj]
      else results) acc =
    acc ++ objects.filterMap (fun obj =>
      if mitreSelect obj keyword = true then some (mkMitreRecord obj) else none) := by
  induction objects generalizing acc with
  | nil => simp
  | cons obj objs ih =>
    simp only [List.foldl_cons, List.filterMap_cons]
    by_cases h1 : obj.type = "intrusion-set"
    · by_cases h2 : obj.x_mitre_deprecated = true
      · have hsel : mitreSelect obj keyword = false := by
          simp [mitreSelect, h2]
        rw [if_pos (Or.inr h2), ih, hsel]
        simp
      · by_cases h3 : (expandTerms keyword).any (fun t => pyIn t (mitreBlob obj)) = true
        · have hsel : mitreSelect obj keyword = true := by
            simp [mitreSelect, h1, Bool.not_eq_true] at *
            exact ⟨h2, h3⟩
          rw [if_neg (by simp [h1, h2]), if_pos h3, ih, hsel]
          simp
        · have hsel : mitreSelect obj keyword = false := by
            simp [mitreSelect, h3]
          rw [if_neg (by simp [h1, h2]), if_neg h3, ih, hsel]
          simp
    · have hsel : mitreSelect obj keyword = false := by
        simp [mitreSelect, h1]
      rw [if_pos (Or.inl h1), ih, hsel]
      simp

theorem get_mitre_groups_eq (objects : List StixObject) (keyword : String) :
    get_mitre_groups objects keyword =
      objects.filterMap (fun obj =>
        if mitreSelect obj keyword = true then some (mkMitreRecord obj) else none) := by
  unfold get_mitre_groups
  rw [get_mitre_groups_foldl]
  simp

theorem mitreSelect_iff (obj : StixObject) (keyword : String) :
    mitreSelect obj keyword = true ↔
      obj.type = "intrusion-set" ∧ obj.x_mitre_deprecated = false ∧
        ∃ t ∈ expandTerms keyword, pyIn t (mitreBlob obj) = true := by
  simp [mitreSelect, List.any_eq_true, Bool.not_eq_true', and_assoc]

theorem mem_get_mitre_groups {objects : List StixObject} {keyword : String}
    {r : ThreatRecord} :
    r ∈ get_mitre_groups objects keyword ↔
      ∃ obj ∈ objects, mitreSelect obj keyword = true ∧ r = mkMitreRecord obj := by
  rw [get_mitre_groups_eq]
  rw [List.mem_filterMap]
  constructor
  · rintro ⟨obj, hm, hf⟩
    by_cases hs : mitreSelect obj keyword = true
    · rw [if_pos hs] at hf
      exact ⟨obj, hm, hs, (Option.some_inj.mp hf).symm⟩
    · rw [if_neg hs] at hf
      exact absurd hf (by simp)
  · rintro ⟨obj, hm, hs, rfl⟩
    exact ⟨obj, hm, by rw [if_pos hs]⟩

/-- C8: the structured-feed matcher emits a record for an object exactly when
its type is `"intrusion-set"`, it is not flagged deprecated, and some
expanded term is a substring of the lower-cased name/description/aliases blob. -/
theorem c8_structured_selection (objects : List StixObject) (keyword : String) :
    get_mitre_groups objects keyword =
      objects.filterMap (fun obj =>
        if obj.type = "intrusion-set" ∧ obj.x_mitre_deprecated = false ∧
            ∃ t ∈ expandTerms keyword, pyIn t (mitreBlob obj) = true
        then some (mkMitreRecord obj) else none) := by
  rw [get_mitre_groups_eq]
  apply List.filterMap_congr
  intro obj _
  exact if_congr (mitreSelect_iff obj keyword) rfl rfl

/-! ### The tabular matcher -/

theorem parse_sheet_tab_foldl (rows : List (List String)) (sheet_id gid keyword : String)
    (acc : List ThreatRecord) :
    rows.foldl (fun results row =>
      if pyIn (pyLower keyword) (pyLower (String.intercalate " " row)) then
        match row.find? sheetCellOk with
        | some v => results ++ [mkSheetRecord sheet_id gid row (pyStrip v)]
        | none => results
      else results) acc =
    acc ++ rows.filterMap (fun row =>
      if pyIn (pyLower keyword) (pyLower (String.intercalate " " row)) = true then
        (row.find? sheetCellOk).map (fun v => mkSheetRecord sheet_id gid row (pyStrip v))
      else none) := by
  induction rows generalizing acc with
  | nil => simp
  | cons row rows ih =>
    simp only [List.foldl_cons, List.filterMap_cons]
    by_cases h1 : pyIn (pyLower keyword) (pyLower (String.intercalate " " row)) = true
    · rw [if_pos h1, if_pos h1]
      cases hf : row.find? sheetCellOk with
      | some v => rw [ih]; simp
      | none => rw [ih]; simp
    · rw [if_neg h1, if_neg (by simpa using h1), ih]

theorem parse_sheet_tab_eq (rows : List (List String)) (sheet_id gid keyword : String) :
    parse_sheet_tab rows sheet_id gid keyword =
      rows.filterMap (fun row =>
        if pyIn (pyLower keyword) (pyLower (String.intercalate " " row)) = true then
          (row.find? sheetCellOk).map (fun v => mkSheetRecord sheet_id gid row (pyStrip v))
        else none) := by
  unfold parse_sheet_tab
  rw [parse_sheet_tab_foldl]
  simp

theorem mem_parse_sheet_tab {rows : List (List String)} {sheet_id gid keyword : String}
    {r : ThreatRecord} :
    r ∈ parse_sheet_tab rows sheet_id gid keyword ↔
      ∃ row ∈ rows, pyIn (pyLower keyword) (pyLower (String.intercalate " " row)) = true ∧
        ∃ v, row.find? sheetCellOk = some v ∧ r = mkSheetRecord sheet_id gid row (pyStrip v) := by
  rw [parse_sheet_tab_eq, List.mem_filterMap]
  constructor
  · rintro ⟨row, hm, hf⟩
    by_cases h1 : pyIn (pyLower keyword) (pyLower (String.intercalate " " row)) = true
    · rw [if_pos h1] at hf
      rcases Option.map_eq_some'.mp hf with ⟨v, hv, rfl⟩
      exact ⟨row, hm, h1, v, hv, rfl⟩
    · rw [if_neg h1] at hf
      exact absurd hf (by simp)
  · rintro ⟨row, hm, h1, v, hv, rfl⟩
    refine ⟨row, hm, ?_⟩
    rw [if_pos h1, hv]
    rfl

/-- C4 (corrected): on a matching row the emitted `display_name` is the
trimmed first cell that is non-empty with trimmed length above 2, and a
matching row with no such cell is discarded. -/
theorem c4_tabular_display_name (row : List String) (sheet_id gid keyword : String)
    (hmatch : pyIn (pyLower keyword) (pyLower (String.intercalate " " row)) = true) :
    (row.find? sheetCellOk = none → parse_sheet_tab [row] sheet_id gid keyword = []) ∧
    (∀ v, row.find? sheetCellOk = some v →
      parse_sheet_tab [row] sheet_id gid keyword =
        [mkSheetRecord sheet_id gid row (pyStrip v)]) := by
  rw [parse_sheet_tab_eq]
  constructor
  · intro hnone
    simp [hmatch, hnone]
  · intro v hv
    simp [hmatch, hv]

/-- C4 counterexample: on the spec's example row the matcher selects
`"T001"` — the first cell already has trimmed length 4 > 2 — and not
`"Sandworm"` as the spec states. -/
theorem c4_tabular_counterexample :
    (parse_sheet_tab [c4row] "S1" "99" "sandworm").map (fun r => r.name) = ["T001"] ∧
    ("T001" : String) ≠ "Sandworm" := by
  constructor
  · decide
  · decide

/-- Witness for C4 at the example row. -/
theorem c4_tabular_display_name_witness :
    parse_sheet_tab [c4row] "S1" "99" "sandworm" =
      [mkSheetRecord "S1" "99" c4row (pyStrip "T001")] :=
  (c4_tabular_display_name c4row "S1" "99" "sandworm" (by decide)).2 "T001" (by decide)

/-- C5 counterexample: an intrusion set named `"!!!"` that matches the term
is emitted with an empty `normalized_key` although its `display_name` is
non-empty. -/
theorem c5_counterexample :
    (get_mitre_groups [objBang] "hospital").map (fun r => (r.name, r.norm_name)) =
      [("!!!", "")] ∧ ("!!!" : String) ≠ "" := by
  constructor
  · decide
  · decide

/-- C5 (corrected): for every record either matcher emits, `normalized_key`
is exactly `normalize_name` of `display_name` (a pure function of it), and it
is empty whenever `display_name` is empty — but, as the counterexample shows,
it can also be empty for a non-empty `display_name`. -/
theorem c5_normalized_key_function :
    (∀ objects keyword r, r ∈ get_mitre_groups objects keyword →
      r.norm_name = normalize_name r.name) ∧
    (∀ rows sheet_id gid keyword r, r ∈ parse_sheet_tab rows sheet_id gid keyword →
      r.norm_name = normalize_name r.name) ∧
    (∀ name : String, name = "" → normalize_name name = "") := by
  refine ⟨?_, ?_, ?_⟩
  · intro objects keyword r hr
    rcases mem_get_mitre_groups.mp hr with ⟨obj, _, _, rfl⟩
    rfl
  · intro rows sheet_id gid keyword r hr
    rcases mem_parse_sheet_tab.mp hr with ⟨row, _, _, v, _, rfl⟩
    rfl
  · intro name h
    rw [h]
    rfl

/-- Witness for C5 on a concretely emitted record. -/
theorem c5_normalized_key_function_witness :
    (mkMitreRecord objFancy).norm_name = normalize_name (mkMitreRecord objFancy).name :=
  c5_normalized_key_function.1 [objFancy] "hospital" (mkMitreRecord objFancy) (by decide)

/-- C7 evaluated at the failing input: the record of the punctuation-named
intrusion set is not dropped; it is emitted with `normalized_key = ""` and
inserted into the Reconciler's map, whose output still carries it. -/
theorem c7_empty_key_reaches_reconciler :
    (get_mitre_groups [objDollar] "oil").map (fun r => r.norm_name) = [""] ∧
    (deduplicate_results (get_mitre_groups [objDollar] "oil") []).output.map
      (fun r => r.norm_name) = [""] := by
  constructor
  · decide
  · decide

/-- C10: every record the structured-feed matcher emits carries as
`detail_text` the lower-cased description truncated to 300 characters with
newlines replaced by spaces — the original casing is not preserved. -/
theorem c10_details_lowercased :
    ∀ objects keyword r, r ∈ get_mitre_groups objects keyword →
      ∃ obj, obj ∈ objects ∧ r.name = obj.name ∧
        r.details = pyReplaceNL (pyTake 300 (pyLower obj.description)) := by
  intro objects keyword r hr
  rcases mem_get_mitre_groups.mp hr with ⟨obj, hm, _, rfl⟩
  exact ⟨obj, hm, rfl, rfl⟩

/-- Witness for C10 on a mixed-case, multi-line description. -/
theorem c10_details_lowercased_witness :
    ∃ obj, obj ∈ [objFancy] ∧ (mkMitreRecord objFancy).name = obj.name ∧
      (mkMitreRecord objFancy).details = pyReplaceNL (pyTake 300 (pyLower obj.description)) :=
  c10_details_lowercased [objFancy] "hospital" (mkMitreRecord objFancy) (by decide)

/-! ### The reconciler on small inputs -/

theorem c1_cross_source_merge (m s : ThreatRecord)
    (h : m.norm_name = s.norm_name) :
    ∃ r, (deduplicate_results [m] [s]).output = [r] ∧
      r.name = m.name ∧ r.id = m.id ∧ r.url = m.url ∧ r.aliases = m.aliases ∧
      r.confirmed_in = ["MITRE", "Google Sheet"] := by
  refine ⟨mergeInto (markMitre m) s.url, ?_, rfl, rfl, rfl, rfl, rfl⟩
  simp only [deduplicate_results, List.map_cons, List.map_nil, seenOfMitre, List.enum_cons,
    List.enumFrom_nil, List.foldl_cons, List.foldl_nil, assocSet, List.length_cons,
    List.length_nil]
  show (dedupGo _ (List.range 1)).seen.map _ = _
  rw [List.range_succ, List.range_zero]
  simp only [List.nil_append, dedupGo, dedupStep, List.getD_cons_zero, List.lookup_cons, ← h,
    beq_self_eq_true, getTag, markMitre]
  rw [if_neg (by decide)]
  simp [setTag, getTag]

/-- Witness for C1: the spec's Sandworm example. -/
theorem c1_cross_source_merge_witness :
    ∃ r, (deduplicate_results [recSandwormMitre] [recSandwormSheet]).output = [r] ∧
      r.name = recSandwormMitre.name ∧ r.id = recSandwormMitre.id ∧
      r.url = recSandwormMitre.url ∧ r.aliases = recSandwormMitre.aliases ∧
      r.confirmed_in = ["MITRE", "Google Sheet"] :=
  c1_cross_source_merge recSandwormMitre recSandwormSheet (by decide)

/-- C3 counterexample: a within-MITRE duplicate key does change the stored
record — the canonical record keeps the later duplicate's fields (here the
display name `"SAND-WORM"`), not the first-seen ones. -/
theorem c3_counterexample :
    (deduplicate_results [recSandwormMitre, recSandwormUpper] []).output =
      [markMitre recSandwormUpper] ∧
    markMitre recSandwormUpper ≠ markMitre recSandwormMitre := by
  constructor
  · decide
  · decide

/-- C3 (corrected): a later duplicate within the tabular feed leaves the
stored canonical record unchanged, but a later duplicate within the
structured feed replaces the stored record wholesale (its position in the
map is kept, its fields become the later occurrence's). -/
theorem c3_same_source_duplicates :
    (∀ s1 s2 : ThreatRecord, s1.norm_name = s2.norm_name →
      (deduplicate_results [] [s1, s2]).output = [markSheet s1]) ∧
    (∀ m1 m2 : ThreatRecord, m1.norm_name = m2.norm_name →
      (deduplicate_results [m1, m2] []).output = [markMitre m2]) := by
  constructor
  · intro s1 s2 h
    simp only [deduplicate_results, List.map_nil, seenOfMitre, List.enum_nil, List.foldl_nil,
      List.length_cons, List.length_nil]
    show (dedupGo _ (List.range 2)).seen.map _ = _
    rw [show List.range 2 = [0, 1] from rfl]
    simp only [dedupGo, dedupStep, List.getD_cons_zero, List.lookup_nil, List.set]
    simp only [markSheet, List.nil_append, List.getD_cons_succ, List.getD_cons_zero,
      List.lookup_cons, ← h, beq_self_eq_true, getTag]
    rw [if_pos (by decide)]
    simp [getTag]
  · intro m1 m2 h
    simp only [deduplicate_results, List.map_cons, List.map_nil, seenOfMitre, List.enum_cons,
      List.enumFrom_cons, List.enumFrom_nil, List.foldl_cons, List.foldl_nil, assocSet,
      List.length_nil]
    rw [show List.range 0 = [] from rfl]
    simp only [dedupGo]
    rw [← h]
    simp only [if_pos rfl, getTag, List.map_cons, List.map_nil, List.getD_cons_succ,
      List.getD_cons_zero]
    simp

/-- Witness for C3 on concrete duplicate pairs. -/
theorem c3_same_source_duplicates_witness :
    (deduplicate_results [] [recSandwormSheet, recSheetDup]).output =
      [markSheet recSandwormSheet] ∧
    (deduplicate_results [recSandwormMitre, recSandwormUpper] []).output =
      [markMitre recSandwormUpper] :=
  ⟨c3_same_source_duplicates.1 recSandwormSheet recSheetDup (by decide),
   c3_same_source_duplicates.2 recSandwormMitre recSandwormUpper (by decide)⟩

/-! ### The ranker -/

theorem strLeB_refl (l : List Char) : strLeB l l = true := by
  induction l with
  | nil => rfl
  | cons c t ih => simp [strLeB, ih]

theorem strLeB_total (l1 l2 : List Char) : strLeB l1 l2 = true ∨ strLeB l2 l1 = true := by
  induction l1 generalizing l2 with
  | nil => left; rfl
  | cons c1 t1 ih =>
    cases l2 with
    | nil => right; rfl
    | cons c2 t2 =>
      rcases Nat.lt_trichotomy c1.toNat c2.toNat with h | h | h
      · left; simp [strLeB, h]
      · rcases ih t2 with h2 | h2
        · left; simp [strLeB, h, h2]
        · right; simp [strLeB, h, h2]
      · right; simp [strLeB, h]

theorem strLeB_cons_iff (c1 c2 : Char) (t1 t2 : List Char) :
    strLeB (c1 :: t1) (c2 :: t2) = true ↔
      c1.toNat < c2.toNat ∨ (c1.toNat = c2.toNat ∧ strLeB t1 t2 = true) := by
  simp only [strLeB]
  by_cases h : c1.toNat < c2.toNat
  · simp [h]
  · by_cases h2 : c2.toNat < c1.toNat
    · rw [if_neg h, if_pos h2]
      simp only [Bool.false_eq_true, false_iff]
      push_neg
      exact ⟨by omega, fun he => absurd he (by omega)⟩
    · have he : c1.toNat = c2.toNat := by omega
      simp [h, he]

theorem strLeB_trans {l1 l2 l3 : List Char} (h1 : strLeB l1 l2 = true)
    (h2 : strLeB l2 l3 = true) : strLeB l1 l3 = true := by
  induction l1 generalizing l2 l3 with
  | nil => rfl
  | cons c1 t1 ih =>
    cases l2 with
    | nil => exact absurd h1 (by simp [strLeB])
    | cons c2 t2 =>
      cases l3 with
      | nil => exact absurd h2 (by simp [strLeB])
      | cons c3 t3 =>
        rw [strLeB_cons_iff] at h1 h2 ⊢
        rcases h1 with h1 | ⟨h1e, h1t⟩ <;> rcases h2 with h2 | ⟨h2e, h2t⟩
        · exact Or.inl (by omega)
        · exact Or.inl (by omega)
        · exact Or.inl (by omega)
        · exact Or.inr ⟨by omega, ih h1t h2t⟩

theorem keyLe_refl (a : Nat × String) : keyLe a a = true := by
  simp [keyLe, strLeB_refl]

theorem keyLe_total (a b : Nat × String) : keyLe a b = true ∨ keyLe b a = true := by
  unfold keyLe
  rcases Nat.lt_trichotomy a.1 b.1 with h | h | h
  · left; simp [h]
  · rcases strLeB_total a.2.data b.2.data with h2 | h2
    · left; simp [h, h2]
    · right; simp [h, h2]
  · right; simp [h]

theorem keyLe_trans {a b c : Nat × String} (h1 : keyLe a b = true)
    (h2 : keyLe b c = true) : keyLe a c = true := by
  unfold keyLe at *
  simp only [Bool.or_eq_true, Bool.and_eq_true, decide_eq_true_eq, beq_iff_eq] at *
  rcases h1 with h1 | ⟨h1, h1s⟩ <;> rcases h2 with h2 | ⟨h2, h2s⟩
  · exact Or.inl (Nat.lt_trans h1 h2)
  · exact Or.inl (h2 ▸ h1)
  · exact Or.inl (h1 ▸ h2)
  · exact Or.inr ⟨h1.trans h2, strLeB_trans h1s h2s⟩

theorem insertDesc_nil (r : ThreatRecord) : insertDesc r [] = [r] := rfl

theorem insertDesc_cons (r x : ThreatRecord) (xs : List ThreatRecord) :
    insertDesc r (x :: xs) =
      if keyLe (rankKey x) (rankKey r) then r :: x :: xs else x :: insertDesc r xs := rfl

theorem insertDesc_perm (r : ThreatRecord) (l : List ThreatRecord) :
    (insertDesc r l).Perm (r :: l) := by
  induction l with
  | nil => exact List.Perm.refl _
  | cons x xs ih =>
    unfold insertDesc
    split
    · exact List.Perm.refl _
    · exact ((ih.cons x).trans (List.Perm.swap r x xs))

theorem rank_perm (l : List ThreatRecord) : (rank l).Perm l := by
  induction l with
  | nil => exact List.Perm.refl _
  | cons x xs ih =>
    show (insertDesc x (rank xs)).Perm _
    exact (insertDesc_perm x (rank xs)).trans (ih.cons x)

theorem pairwise_insertDesc {l : List ThreatRecord} (r : ThreatRecord)
    (h : l.Pairwise rankGE) : (insertDesc r l).Pairwise rankGE := by
  induction l with
  | nil => simp [insertDesc, List.pairwise_cons]
  | cons x xs ih =>
    rcases List.pairwise_cons.mp h with ⟨hx, hxs⟩
    unfold insertDesc
    split
    · next hle =>
      refine List.pairwise_cons.mpr ⟨?_, h⟩
      intro y hy
      rcases List.mem_cons.mp hy with rfl | hy
      · exact hle
      · exact keyLe_trans (hx y hy) hle
    · next hle =>
      refine List.pairwise_cons.mpr ⟨?_, ih hxs⟩
      intro y hy
      have hy' := (insertDesc_perm r xs).mem_iff.mp hy
      rcases List.mem_cons.mp hy' with rfl | hy2
      · rcases keyLe_total (rankKey x) (rankKey y) with ht | ht
        · exact absurd ht hle
        · exact ht
      · exact hx y hy2

theorem rank_pairwise (l : List ThreatRecord) : (rank l).Pairwise rankGE := by
  induction l with
  | nil => exact List.Pairwise.nil
  | cons x xs ih => exact pairwise_insertDesc x ih

theorem filter_insertDesc_of_key (r : ThreatRecord) (l : List ThreatRecord)
    (k : Nat × String) (h : rankKey r = k) :
    (insertDesc r l).filter (fun x => decide (rankKey x = k)) =
      r :: l.filter (fun x => decide (rankKey x = k)) := by
  induction l with
  | nil => simp [insertDesc, h]
  | cons x xs ih =>
    unfold insertDesc
    split
    · simp [List.filter_cons, h]
    · next hle =>
      have hxk : ¬ rankKey x = k := by
        intro hk
        exact hle (by rw [hk, ← h]; exact keyLe_refl _)
      simp only [List.filter_cons]
      rw [if_neg (by simpa using hxk), if_neg (by simpa using hxk)]
      exact ih

theorem filter_insertDesc_of_ne (r : ThreatRecord) (l : List ThreatRecord)
    (k : Nat × String) (h : rankKey r ≠ k) :
    (insertDesc r l).filter (fun x => decide (rankKey x = k)) =
      l.filter (fun x => decide (rankKey x = k)) := by
  induction l with
  | nil => simp [insertDesc, h]
  | cons x xs ih =>
    unfold insertDesc
    split
    · simp only [List.filter_cons]
      rw [if_neg (by simpa using h)]
    · simp only [List.filter_cons]
      rw [ih]

theorem rank_stable (l : List ThreatRecord) (k : Nat × String) :
    (rank l).filter (fun x => decide (rankKey x = k)) =
      l.filter (fun x => decide (rankKey x = k)) := by
  induction l with
  | nil => rfl
  | cons x xs ih =>
    show (insertDesc x (rank xs)).filter _ = _
    by_cases hk : rankKey x = k
    · rw [filter_insertDesc_of_key x _ k hk, ih, List.filter_cons, if_pos (by simpa using hk)]
    · rw [filter_insertDesc_of_ne x _ k hk, ih, List.filter_cons, if_neg (by simpa using hk)]

/-- C6 counterexample: with `confirmed_in` sizes [1, 2, 1, 3] but distinct
source labels on the two size-1 records, the secondary sort key reverses
their original relative order: the output is d, b, c, a — not d, b, a, c. -/
theorem c6_counterexample :
    [rnkA.confirmed_in.length, rnkB.confirmed_in.length, rnkC.confirmed_in.length,
      rnkD.confirmed_in.length] = [1, 2, 1, 3] ∧
    rank [rnkA, rnkB, rnkC, rnkD] = [rnkD, rnkB, rnkC, rnkA] ∧
    rank [rnkA, rnkB, rnkC, rnkD] ≠ [rnkD, rnkB, rnkA, rnkC] := by
  refine ⟨by decide, by decide, by decide⟩

/-- C6 (corrected): `rank` is a permutation, sorted descending under the
(count, source) key, and stable (record subsequences of any fixed key are
preserved); for four records with sizes [1, 2, 1, 3] the size order is
[3, 2, 1, 1], and the two size-1 records keep their original relative order
provided they carry the same `source_label` — the secondary key can
otherwise swap them. -/
theorem c6_rank_stable_sort :
    (∀ l, (rank l).Perm l) ∧
    (∀ l, (rank l).Pairwise rankGE) ∧
    (∀ l k, (rank l).filter (fun x => decide (rankKey x = k)) =
      l.filter (fun x => decide (rankKey x = k))) ∧
    (∀ a b c d : ThreatRecord,
      a.confirmed_in.length = 1 → b.confirmed_in.length = 2 →
      c.confirmed_in.length = 1 → d.confirmed_in.length = 3 →
      a.source = c.source →
      rank [a, b, c, d] = [d, b, a, c]) := by
  refine ⟨rank_perm, rank_pairwise, rank_stable, ?_⟩
  intro a b c d ha hb hc hd hs
  have hdc : keyLe (rankKey d) (rankKey c) = false := by simp [keyLe, rankKey, hd, hc]
  have hdb : keyLe (rankKey d) (rankKey b) = false := by simp [keyLe, rankKey, hd, hb]
  have hcb : keyLe (rankKey c) (rankKey b) = true := by simp [keyLe, rankKey, hc, hb]
  have hda : keyLe (rankKey d) (rankKey a) = false := by simp [keyLe, rankKey, hd, ha]
  have hba : keyLe (rankKey b) (rankKey a) = false := by simp [keyLe, rankKey, hb, ha]
  have hca : keyLe (rankKey c) (rankKey a) = true := by
    simp [keyLe, rankKey, hc, ha, hs, strLeB_refl]
  show insertDesc a (insertDesc b (insertDesc c (insertDesc d []))) = _
  simp [insertDesc_nil, insertDesc_cons, hdc, hdb, hcb, hda, hba, hca]

/-- Witness for C6: the four sizes with one shared source label. -/
theorem c6_rank_stable_sort_witness :
    rank [rnkA2, rnkB2, rnkC2, rnkD2] = [rnkD2, rnkB2, rnkA2, rnkC2] :=
  c6_rank_stable_sort.2.2.2 rnkA2 rnkB2 rnkC2 rnkD2
    (by decide) (by decide) (by decide) (by decide) (by decide)

/-- C2 counterexample: re-running `reconcile` + `rank` over the very same
record objects is observably different once a cross-source merge happened —
the second run appends the Google-Sheet cross-reference note to `details` a
second time. -/
theorem c2_counterexample :
    runTwice [recSandwormMitre] [recSandwormSheet] ≠
      runOnce [recSandwormMitre] [recSandwormSheet] := by
  decide

/-! ### Reconcile-then-rank idempotence on collision-free inputs -/

theorem getD_set_ne {l : List ThreatRecord} {i j : Nat} (h : i ≠ j) (v d : ThreatRecord) :
    (l.set i v).getD j d = l.getD j d := by
  rw [List.getD_eq_getElem?_getD, List.getD_eq_getElem?_getD, List.getElem?_set_ne h]

theorem getD_set_self {l : List ThreatRecord} {i : Nat} (h : i < l.length)
    (v d : ThreatRecord) : (l.set i v).getD i d = v := by
  rw [List.getD_eq_getElem?_getD, List.getElem?_set_self (by simpa using h)]
  rfl

theorem set_getD_self {l : List ThreatRecord} {i : Nat} (h : i < l.length)
    (d : ThreatRecord) : l.set i (l.getD i d) = l := by
  apply List.ext_getElem?
  intro n
  by_cases hn : i = n
  · subst hn
    rw [List.getElem?_set_self h, List.getD_eq_getElem?_getD]
    rw [List.getElem?_eq_getElem h]
    rfl
  · rw [List.getElem?_set_ne hn]

theorem mem_of_lookup_eq_some {sn : SeenMap} {k : String} {t : SeenTag}
    (h : List.lookup k sn = some t) : (k, t) ∈ sn := by
  induction sn with
  | nil => exact absurd h (by simp)
  | cons p rest ih =>
    rcases p with ⟨k2, t2⟩
    rw [List.lookup_cons] at h
    by_cases hk : k == k2
    · simp only [hk] at h
      have : k = k2 := by simpa using hk
      subst this
      cases h
      exact List.mem_cons_self _ _
    · simp only [Bool.not_eq_true] at hk
      rw [hk] at h
      exact List.mem_cons_of_mem _ (ih h)

theorem mem_assocSet {sn : SeenMap} {k : String} {t : SeenTag} {p : String × SeenTag}
    (h : p ∈ assocSet sn k t) : p = (k, t) ∨ p ∈ sn := by
  induction sn with
  | nil => simpa [assocSet] using h
  | cons q rest ih =>
    unfold assocSet at h
    split at h
    · rcases List.mem_cons.mp h with rfl | h2
      · exact Or.inl rfl
      · exact Or.inr (List.mem_cons_of_mem _ h2)
    · rcases List.mem_cons.mp h with rfl | h2
      · exact Or.inr (List.mem_cons_self _ _)
      · rcases ih h2 with h3 | h3
        · exact Or.inl h3
        · exact Or.inr (List.mem_cons_of_mem _ h3)

theorem snd_mem_of_mem_enumFrom {l : List ThreatRecord} {n : Nat} {q : Nat × ThreatRecord}
    (h : q ∈ List.enumFrom n l) : q.2 ∈ l := by
  induction l generalizing n with
  | nil => exact absurd h (by simp)
  | cons x xs ih =>
    rw [List.enumFrom_cons] at h
    rcases List.mem_cons.mp h with rfl | h2
    · exact List.mem_cons_self _ _
    · exact List.mem_cons_of_mem _ (ih h2)

theorem seenOfMitre_mem_aux {P : String × SeenTag → Prop}
    (l : List (Nat × ThreatRecord)) (sn : SeenMap)
    (hsn : ∀ p ∈ sn, P p) (hl : ∀ q ∈ l, P (q.2.norm_name, Sum.inl q.1)) :
    ∀ p ∈ l.foldl (fun sn q => assocSet sn q.2.norm_name (Sum.inl q.1)) sn, P p := by
  induction l generalizing sn with
  | nil => exact hsn
  | cons q rest ih =>
    rw [List.foldl_cons]
    apply ih
    · intro p hp
      rcases mem_assocSet hp with rfl | hp2
      · exact hl q (List.mem_cons_self _ _)
      · exact hsn p hp2
    · intro q2 hq2
      exact hl q2 (List.mem_cons_of_mem _ hq2)

theorem seenOfMitre_mem {m : List ThreatRecord} {p : String × SeenTag}
    (h : p ∈ seenOfMitre m) : (∃ i, p.2 = Sum.inl i) ∧ p.1 ∈ normKeys m := by
  revert p h
  unfold seenOfMitre
  rw [List.enum]
  apply seenOfMitre_mem_aux
  · intro p hp
    exact absurd hp (by simp)
  · intro q hq
    refine ⟨⟨q.1, rfl⟩, ?_⟩
    show q.2.norm_name ∈ normKeys m
    exact List.mem_map_of_mem _ (snd_mem_of_mem_enumFrom hq)

theorem dedupInv_mono {mKeys : List String} {st : DedupSt} {j : Nat} {js : List Nat}
    (h : DedupInv mKeys st (j :: js)) : DedupInv mKeys st js := by
  obtain ⟨hnd, hpos, hseen⟩ := h
  refine ⟨(List.nodup_cons.mp hnd).2, ?_, ?_⟩
  · intro j2 hj2
    exact hpos j2 (List.mem_cons_of_mem _ hj2)
  · intro p hp
    refine ⟨(hseen p hp).1, ?_⟩
    intro j2 hj2
    obtain ⟨hnotin, hgs⟩ := (hseen p hp).2 j2 hj2
    exact ⟨fun hmem => hnotin (List.mem_cons_of_mem _ hmem), hgs⟩

theorem markSheet_norm_name (it : ThreatRecord) : (markSheet it).norm_name = it.norm_name := rfl

theorem dedupStep_cases {mKeys : List String} {st : DedupSt} {j : Nat} {js : List Nat}
    (h : DedupInv mKeys st (j :: js)) :
    (∃ j2, List.lookup (st.sa.getD j default).norm_name st.seen = some (Sum.inr j2) ∧
      "Google Sheet" ∈ (st.sa.getD j2 default).confirmed_in ∧ j2 ∉ (j :: js) ∧
      dedupStep st j = st ∧ DedupInv mKeys st js) ∨
    (List.lookup (st.sa.getD j default).norm_name st.seen = none ∧
      dedupStep st j =
        { st with sa := st.sa.set j (markSheet (st.sa.getD j default)),
                  seen := st.seen ++ [((st.sa.getD j default).norm_name, Sum.inr j)] } ∧
      DedupInv mKeys (dedupStep st j) js) := by
  obtain ⟨hnd, hpos, hseen⟩ := h
  have hjj : j ∉ js := (List.nodup_cons.mp hnd).1
  have hjlen : j < st.sa.length := (hpos j (List.mem_cons_self _ _)).1
  have hjkey : (st.sa.getD j default).norm_name ∉ mKeys :=
    (hpos j (List.mem_cons_self _ _)).2
  cases hl : List.lookup (st.sa.getD j default).norm_name st.seen with
  | some t =>
    left
    have hmem := mem_of_lookup_eq_some hl
    cases t with
    | inl i =>
      exact absurd ((hseen _ hmem).1 i rfl) hjkey
    | inr j2 =>
      obtain ⟨hnotin, hgs⟩ := (hseen _ hmem).2 j2 rfl
      refine ⟨j2, rfl, hgs, hnotin, ?_, dedupInv_mono ⟨hnd, hpos, hseen⟩⟩
      unfold dedupStep
      rw [hl]
      simp only [getTag]
      rw [if_pos hgs]
  | none =>
    right
    have hstep : dedupStep st j =
        { st with sa := st.sa.set j (markSheet (st.sa.getD j default)),
                  seen := st.seen ++ [((st.sa.getD j default).norm_name, Sum.inr j)] } := by
      unfold dedupStep
      rw [hl]
    refine ⟨rfl, hstep, ?_⟩
    rw [hstep]
    refine ⟨(List.nodup_cons.mp hnd).2, ?_, ?_⟩
    · intro j2 hj2
      have hne : j ≠ j2 := fun he => hjj (he ▸ hj2)
      constructor
      · simpa [List.length_set] using (hpos j2 (List.mem_cons_of_mem _ hj2)).1
      · rw [getD_set_ne hne]
        exact (hpos j2 (List.mem_cons_of_mem _ hj2)).2
    · intro p hp
      rcases List.mem_append.mp hp with hp1 | hp2
      · refine ⟨(hseen p hp1).1, ?_⟩
        intro j2 hj2
        obtain ⟨hnotin, hgs⟩ := (hseen p hp1).2 j2 hj2
        have hne : j ≠ j2 := fun he => hnotin (he ▸ List.mem_cons_self _ _)
        refine ⟨fun hmem => hnotin (List.mem_cons_of_mem _ hmem), ?_⟩
        rw [getD_set_ne hne]
        exact hgs
      · have hp2' : p = ((st.sa.getD j default).norm_name, Sum.inr j) := by simpa using hp2
        subst hp2'
        refine ⟨by simp, ?_⟩
        intro j2 hj2
        have : j2 = j := by simpa using hj2.symm
        subst this
        refine ⟨hjj, ?_⟩
        rw [getD_set_self hjlen]
        show "Google Sheet" ∈ ["Google Sheet"]
        simp

theorem dedupStep_eq_of_lookup_inr {st : DedupSt} {j j2 : Nat}
    (hl : List.lookup (st.sa.getD j default).norm_name st.seen = some (Sum.inr j2))
    (hgs : "Google Sheet" ∈ (st.sa.getD j2 default).confirmed_in) :
    dedupStep st j = st := by
  unfold dedupStep
  rw [hl]
  simp only [getTag]
  rw [if_pos hgs]

theorem dedupStep_eq_of_lookup_none {st : DedupSt} {j : Nat}
    (hl : List.lookup (st.sa.getD j default).norm_name st.seen = none) :
    dedupStep st j =
      { st with sa := st.sa.set j (markSheet (st.sa.getD j default)),
                seen := st.seen ++ [((st.sa.getD j default).norm_name, Sum.inr j)] } := by
  unfold dedupStep
  rw [hl]

theorem dedupGo_frame {mKeys : List String} {js : List Nat} {st : DedupSt}
    (h : DedupInv mKeys st js) :
    (dedupGo st js).ma = st.ma ∧ (dedupGo st js).sa.length = st.sa.length ∧
    (∀ j, j ∉ js → (dedupGo st js).sa.getD j default = st.sa.getD j default) := by
  induction js generalizing st with
  | nil => exact ⟨rfl, rfl, fun _ _ => rfl⟩
  | cons j js ih =>
    rcases dedupStep_cases h with ⟨j2, hl, hgs, hnotin, hstep, hinv⟩ | ⟨hl, hstep, hinv⟩
    · have hgo : dedupGo st (j :: js) = dedupGo st js := by
        show dedupGo (dedupStep st j) js = _
        rw [hstep]
      rw [hgo]
      obtain ⟨ha, hb, hc⟩ := ih hinv
      exact ⟨ha, hb, fun j2 hj2 => hc j2 (fun hm => hj2 (List.mem_cons_of_mem _ hm))⟩
    · have hgo : dedupGo st (j :: js) = dedupGo (dedupStep st j) js := rfl
      rw [hgo]
      obtain ⟨ha, hb, hc⟩ := ih hinv
      refine ⟨?_, ?_, ?_⟩
      · rw [ha, hstep]
      · rw [hb, hstep]
        simp [List.length_set]
      · intro j2 hj2
        have hne : j ≠ j2 := fun he => hj2 (he ▸ List.mem_cons_self _ _)
        rw [hc j2 (fun hm => hj2 (List.mem_cons_of_mem _ hm)), hstep]
        show (st.sa.set j _).getD j2 default = _
        rw [getD_set_ne hne]

theorem dedupGo_idem {mKeys : List String} {js : List Nat} {st : DedupSt}
    (h : DedupInv mKeys st js) :
    dedupGo { st with sa := (dedupGo st js).sa } js = dedupGo st js := by
  induction js generalizing st with
  | nil => rfl
  | cons j js ih =>
    have hjjs : j ∉ js := (List.nodup_cons.mp h.1).1
    have hjlen : j < st.sa.length := (h.2.1 j (List.mem_cons_self _ _)).1
    rcases dedupStep_cases h with ⟨j2, hl, hgs, hnotin, hstep, hinv⟩ | ⟨hl, hstep, hinv⟩
    · have hgo : dedupGo st (j :: js) = dedupGo st js := by
        show dedupGo (dedupStep st j) js = _
        rw [hstep]
      obtain ⟨hma, hlen, hget⟩ := dedupGo_frame hinv
      rw [hgo]
      have hj2js : j2 ∉ js := fun hm => hnotin (List.mem_cons_of_mem _ hm)
      have hkeyj : (dedupGo st js).sa.getD j default = st.sa.getD j default := hget j hjjs
      have hstep2 : dedupStep { st with sa := (dedupGo st js).sa } j =
          { st with sa := (dedupGo st js).sa } := by
        refine @dedupStep_eq_of_lookup_inr _ _ j2 ?_ ?_
        · show List.lookup ((dedupGo st js).sa.getD j default).norm_name st.seen = _
          rw [hkeyj]
          exact hl
        · show "Google Sheet" ∈ ((dedupGo st js).sa.getD j2 default).confirmed_in
          rw [hget j2 hj2js]
          exact hgs
      show dedupGo (dedupStep { st with sa := (dedupGo st js).sa } j) js = _
      rw [hstep2]
      exact ih hinv
    · have hgo : dedupGo st (j :: js) = dedupGo (dedupStep st j) js := rfl
      obtain ⟨hma, hlen, hget⟩ := dedupGo_frame hinv
      rw [hgo]
      have hitem : (dedupGo (dedupStep st j) js).sa.getD j default =
          markSheet (st.sa.getD j default) := by
        rw [hget j hjjs, hstep]
        show (st.sa.set j _).getD j default = _
        rw [getD_set_self hjlen]
      have hlen2 : j < (dedupGo (dedupStep st j) js).sa.length := by
        rw [hlen, hstep]
        show j < (st.sa.set j _).length
        rw [List.length_set]
        exact hjlen
      have hl2 : List.lookup
          ((({ st with sa := (dedupGo (dedupStep st j) js).sa } : DedupSt).sa.getD j
            default).norm_name)
          ({ st with sa := (dedupGo (dedupStep st j) js).sa } : DedupSt).seen = none := by
        show List.lookup
          (((dedupGo (dedupStep st j) js).sa.getD j default).norm_name) st.seen = none
        rw [hitem, markSheet_norm_name]
        exact hl
      have hsa : ({ st with sa := (dedupGo (dedupStep st j) js).sa } : DedupSt).sa.set j
            (markSheet (({ st with sa := (dedupGo (dedupStep st j) js).sa } :
              DedupSt).sa.getD j default)) = (dedupGo (dedupStep st j) js).sa := by
        show (dedupGo (dedupStep st j) js).sa.set j
          (markSheet ((dedupGo (dedupStep st j) js).sa.getD j default)) = _
        rw [hitem]
        have hmm : markSheet (markSheet (st.sa.getD j default)) =
            markSheet (st.sa.getD j default) := rfl
        rw [hmm, ← hitem]
        exact set_getD_self hlen2 default
      have hseen2 : ({ st with sa := (dedupGo (dedupStep st j) js).sa } : DedupSt).seen ++
            [((({ st with sa := (dedupGo (dedupStep st j) js).sa } : DedupSt).sa.getD j
              default).norm_name, Sum.inr j)] = (dedupStep st j).seen := by
        show st.seen ++
          [(((dedupGo (dedupStep st j) js).sa.getD j default).norm_name, Sum.inr j)] = _
        rw [hitem, markSheet_norm_name, hstep]
      have hstep2 : dedupStep { st with sa := (dedupGo (dedupStep st j) js).sa } j =
          { (dedupStep st j) with sa := (dedupGo (dedupStep st j) js).sa } := by
        rw [dedupStep_eq_of_lookup_none hl2, hsa, hseen2, hstep]
      show dedupGo (dedupStep { st with sa := (dedupGo (dedupStep st j) js).sa } j) js = _
      rw [hstep2]
      exact ih hinv

theorem markMitre_markMitre (x : ThreatRecord) : markMitre (markMitre x) = markMitre x := rfl

theorem seenOfMitre_map_markMitre (m : List ThreatRecord) :
    seenOfMitre (m.map markMitre) = seenOfMitre m := by
  unfold seenOfMitre
  rw [List.enum_map, List.foldl_map]
  apply List.foldl_ext
  intro sn q _
  rcases q with ⟨i, r⟩
  rfl

theorem dedupInv_init (m s : List ThreatRecord)
    (H : ∀ r ∈ s, r.norm_name ∉ normKeys m) :
    DedupInv (normKeys m) ⟨m.map markMitre, s, seenOfMitre m⟩ (List.range s.length) := by
  refine ⟨List.nodup_range _, ?_, ?_⟩
  · intro j hj
    have hjlen : j < s.length := List.mem_range.mp hj
    refine ⟨hjlen, ?_⟩
    have hmem : s.getD j default ∈ s := by
      rw [List.getD_eq_getElem?_getD, List.getElem?_eq_getElem hjlen]
      simp [List.getElem_mem]
    exact H _ hmem
  · intro p hp
    obtain ⟨⟨i, hi⟩, hk⟩ := seenOfMitre_mem hp
    constructor
    · intro i2 _
      exact hk
    · intro j hj
      rw [hi] at hj
      exact absurd hj (by simp)

/-- C2 (corrected): `reconcile` mutates its input records in place, so
re-running it over the same objects is only guaranteed to reproduce the
first output when no tabular record shares a normalized key with a
structured record; in that collision-free case reconcile-then-rank twice
equals reconcile-then-rank once. -/
theorem c2_rerun_identical_without_collisions (m s : List ThreatRecord)
    (H : ∀ r ∈ s, r.norm_name ∉ normKeys m) :
    runTwice m s = runOnce m s := by
  have hinv := dedupInv_init m s H
  obtain ⟨hma, hlen, hget⟩ := dedupGo_frame hinv
  have hout1 : deduplicate_results m s =
      ⟨(dedupGo ⟨m.map markMitre, s, seenOfMitre m⟩ (List.range s.length)).ma,
       (dedupGo ⟨m.map markMitre, s, seenOfMitre m⟩ (List.range s.length)).sa,
       (dedupGo ⟨m.map markMitre, s, seenOfMitre m⟩ (List.range s.length)).seen.map
         (fun p => getTag (dedupGo ⟨m.map markMitre, s, seenOfMitre m⟩
           (List.range s.length)) p.2)⟩ := rfl
  have hmap2 : (m.map markMitre).map markMitre = m.map markMitre := by
    rw [List.map_map]
    apply List.map_congr_left
    intro x _
    exact markMitre_markMitre x
  show rank (deduplicate_results (deduplicate_results m s).mitreOut
      (deduplicate_results m s).sheetOut).output = rank (deduplicate_results m s).output
  rw [hout1]
  simp only [hma]
  have hlen2 : (dedupGo ⟨m.map markMitre, s, seenOfMitre m⟩ (List.range s.length)).sa.length
      = s.length := hlen
  have hout2 : deduplicate_results (m.map markMitre)
      (dedupGo ⟨m.map markMitre, s, seenOfMitre m⟩ (List.range s.length)).sa =
      ⟨(dedupGo ⟨(m.map markMitre).map markMitre,
          (dedupGo ⟨m.map markMitre, s, seenOfMitre m⟩ (List.range s.length)).sa,
          seenOfMitre (m.map markMitre)⟩
          (List.range (dedupGo ⟨m.map markMitre, s, seenOfMitre m⟩
            (List.range s.length)).sa.length)).ma,
       (dedupGo ⟨(m.map markMitre).map markMitre,
          (dedupGo ⟨m.map markMitre, s, seenOfMitre m⟩ (List.range s.length)).sa,
          seenOfMitre (m.map markMitre)⟩
          (List.range (dedupGo ⟨m.map markMitre, s, seenOfMitre m⟩
            (List.range s.length)).sa.length)).sa,
       (dedupGo ⟨(m.map markMitre).map markMitre,
          (dedupGo ⟨m.map markMitre, s, seenOfMitre m⟩ (List.range s.length)).sa,
          seenOfMitre (m.map markMitre)⟩
          (List.range (dedupGo ⟨m.map markMitre, s, seenOfMitre m⟩
            (List.range s.length)).sa.length)).seen.map
         (fun p => getTag (dedupGo ⟨(m.map markMitre).map markMitre,
            (dedupGo ⟨m.map markMitre, s, seenOfMitre m⟩ (List.range s.length)).sa,
            seenOfMitre (m.map markMitre)⟩
            (List.range (dedupGo ⟨m.map markMitre, s, seenOfMitre m⟩
              (List.range s.length)).sa.length)) p.2)⟩ := rfl
  rw [hout2]
  simp only [hmap2, seenOfMitre_map_markMitre, hlen2]
  have hidem := dedupGo_idem hinv
  have hstate : (⟨m.map markMitre,
      (dedupGo ⟨m.map markMitre, s, seenOfMitre m⟩ (List.range s.length)).sa,
      seenOfMitre m⟩ : DedupSt) =
      { (⟨m.map markMitre, s, seenOfMitre m⟩ : DedupSt) with
        sa := (dedupGo ⟨m.map markMitre, s, seenOfMitre m⟩ (List.range s.length)).sa } := rfl
  rw [hstate, hidem]

/-- Witness for C2 on concrete collision-free inputs. -/
theorem c2_rerun_identical_without_collisions_witness :
    runTwice [recSandwormMitre] [recTurlaSheet] = runOnce [recSandwormMitre] [recTurlaSheet] :=
  c2_rerun_identical_without_collisions [recSandwormMitre] [recTurlaSheet] (by decide)
